import Mathlib

/-!
Verification of the 4x4 mini sudoku engine (`mini_sudoku.py`).

The board is embedded as a function `Nat → Nat → Nat`; cell `(i, j)` of the
Python list-of-lists `board` is `b i j`, with `0` standing for an empty cell.
Only the region `i < 4 ∧ j < 4` is ever read or written by the engine.

In-place mutation is embedded by explicit state passing: `solve_backtrack`
returns the pair (success flag, final board) and `count_solutions` returns
(count, final board).  The `random.shuffle` of the candidate list in
`solve_backtrack` is embedded as an oracle `o : Board → List Nat` giving the
shuffled candidate list used at the node whose entry board is `b` (node entry
boards are distinct along any run, so every execution is covered by some
oracle); theorems quantify over all oracles that produce permutations of
`[1,2,3,4]`.  The recursion is driven by fuel; the top-level wrappers supply
`numZeros b + 1`, which is exactly the depth the Python recursion reaches.
-/

/-! ## Definitions -/

abbrev Board := Nat → Nat → Nat

/-- Embedding of the assignment `board[r][c] = v`. -/
def setCell (b : Board) (r c v : Nat) : Board :=
  fun i j => if i = r ∧ j = c then v else b i j

/-- Embedding of `is_valid(board, r, c, val)` (source lines 38-49): true iff
none of the row scan, column scan and 2x2-box scan finds `v`; each scan ranges
over the whole unit, including the target cell `(r, c)` itself.  Box origin is
`(r / 2 * 2, c / 2 * 2)` as in the source. -/
def isValid (b : Board) (r c v : Nat) : Bool :=
  @decide (∀ j < 4, b r j ≠ v) (by infer_instance) &&
  (@decide (∀ i < 4, b i c ≠ v) (by infer_instance) &&
   @decide (∀ i < 2, ∀ j < 2, b (r / 2 * 2 + i) (c / 2 * 2 + j) ≠ v)
     (by infer_instance))

/-- The sixteen cells of the 4x4 region in the row-major order scanned by
`find_empty`. -/
def allCells : List (Nat × Nat) :=
  [(0,0),(0,1),(0,2),(0,3),(1,0),(1,1),(1,2),(1,3),
   (2,0),(2,1),(2,2),(2,3),(3,0),(3,1),(3,2),(3,3)]

/-- Embedding of `find_empty(board)` (source lines 51-56): first cell holding
`0` in row-major order, if any. -/
def findEmpty (b : Board) : Option (Nat × Nat) :=
  allCells.find? fun p => b p.1 p.2 == 0

/-- Number of empty cells in the 4x4 region; used as recursion fuel. -/
def numZeros (b : Board) : Nat :=
  ((Finset.range 4 ×ˢ Finset.range 4).filter fun p => b p.1 p.2 = 0).card

/-- Embedding of `board_complete(board)` (source lines 120-121). -/
def boardComplete (b : Board) : Bool :=
  @decide (∀ i < 4, ∀ j < 4, b i j ≠ 0) (by infer_instance)

/-- Embedding of `board_valid(board)` (source lines 123-151).  The Python
seen-set loops return `False` exactly when some unit (row, column or 2x2 box)
contains the same nonzero value at two distinct positions; this is that
condition stated index-wise (each disjunction says: the two positions
coincide, or the first holds no value, or they hold different values). -/
def boxPairOK (b : Board) (p q u w : Nat) : Prop :=
  ∀ u' < 2, ∀ w' < 2, (u = u' ∧ w = w') ∨ b (2*p+u) (2*q+w) = 0 ∨
    b (2*p+u) (2*q+w) ≠ b (2*p+u') (2*q+w')

instance (b : Board) (p q u w : Nat) : Decidable (boxPairOK b p q u w) := by
  unfold boxPairOK; infer_instance

/-- The 2x2-box part of `board_valid`. -/
def boxesProp (b : Board) : Prop :=
  ∀ p < 2, ∀ q < 2, ∀ u < 2, ∀ w < 2, boxPairOK b p q u w

instance (b : Board) : Decidable (boxesProp b) := by
  unfold boxesProp; infer_instance

def boardValid (b : Board) : Bool :=
  @decide (∀ i < 4, ∀ u < 4, ∀ w < 4, u = w ∨ b i u = 0 ∨ b i u ≠ b i w)
    (by infer_instance) &&
  (@decide (∀ j < 4, ∀ u < 4, ∀ w < 4, u = w ∨ b u j = 0 ∨ b u j ≠ b w j)
    (by infer_instance) &&
   @decide (boxesProp b) (by infer_instance))

/-- A Sudoku completion of the grid `g`: a board whose 4x4 region holds only
digits 1-4, which satisfies all row/column/box constraints, and which agrees
with `g` on every non-empty cell of `g`. -/
def isCompletion (g s : Board) : Prop :=
  (∀ i < 4, ∀ j < 4, 1 ≤ s i j ∧ s i j ≤ 4) ∧
  boardValid s = true ∧
  (∀ i < 4, ∀ j < 4, g i j ≠ 0 → s i j = g i j)

instance (g s : Board) : Decidable (isCompletion g s) := by
  unfold isCompletion; infer_instance

/-- Build a board from a list of rows (cells outside the given rows are 0). -/
def boardOfRows (rows : List (List Nat)) : Board :=
  fun i j => (rows.getD i []).getD j 0

def zeroBoard : Board := fun _ _ => 0

/-- A fixed valid complete board, used to witness solvability of the empty
grid. -/
def demoSolution : Board :=
  boardOfRows [[1,2,3,4],[3,4,1,2],[2,1,4,3],[4,3,2,1]]

def tryVals (next : Board → Bool × Board) (r c : Nat) :
    Board → List Nat → Bool × Board
  | b, [] => (false, b)
  | b, v :: vs =>
    if isValid b r c v then
      match next (setCell b r c v) with
      | (true, b') => (true, b')
      | (false, b') => tryVals next r c (setCell b' r c 0) vs
    else tryVals next r c b vs

/-- Embedding of `solve_backtrack(board)` (source lines 58-72), fuelled.  The
oracle `o` supplies the shuffled candidate list for the node entered at board
`b`. -/
def solveB (o : Board → List Nat) : Nat → Board → Bool × Board
  | 0, b => (false, b)
  | fuel+1, b =>
    match findEmpty b with
    | none => (true, b)
    | some (r, c) => tryVals (fun b' => solveB o fuel b') r c b (o b)

/-- `solve_backtrack` with exactly enough fuel: the Python recursion nests one
call per empty cell, so depth `numZeros b + 1` is never exhausted. -/
def solve_backtrack (o : Board → List Nat) (b : Board) : Bool × Board :=
  solveB o (numZeros b + 1) b

def countVals (next : Board → Nat × Board) (limit r c : Nat) :
    Board → List Nat → Nat → Nat × Board
  | b, [], total => (total, b)
  | b, v :: vs, total =>
    if isValid b r c v then
      match next (setCell b r c v) with
      | (n, b') =>
        if limit ≤ total + n then (total + n, setCell b' r c 0)
        else countVals next limit r c (setCell b' r c 0) vs (total + n)
    else countVals next limit r c b vs total

/-- Embedding of `count_solutions(board, limit)` (source lines 74-88),
fuelled.  Candidates are tried in the fixed order `[1,2,3,4]`. -/
def countSol : Nat → Nat → Board → Nat × Board
  | 0, _, b => (0, b)
  | fuel+1, limit, b =>
    match findEmpty b with
    | none => (1, b)
    | some (r, c) =>
      countVals (fun b' => countSol fuel limit b') limit r c b [1,2,3,4] 0

/-- `count_solutions` with exactly enough fuel (cf. `solve_backtrack`). -/
def count_solutions (b : Board) (limit : Nat) : Nat × Board :=
  countSol (numZeros b + 1) limit b

/-- What a successful solver call guarantees about its result board `s`
relative to the entry board `b`: complete, agreeing with `b` on non-empty
cells and outside the region, preserving validity, and filling only with
digits 1-4 (given that the oracle only supplies values `≤ 4`). -/
def SolvedFrom (b s : Board) : Prop :=
  boardComplete s = true ∧
  (∀ i j, b i j ≠ 0 → s i j = b i j) ∧
  (∀ i j, 4 ≤ i ∨ 4 ≤ j → s i j = b i j) ∧
  (boardValid b = true → boardValid s = true) ∧
  (∀ i < 4, ∀ j < 4, s i j = b i j ∨ (b i j = 0 ∧ 1 ≤ s i j ∧ s i j ≤ 4))

/-- Embedding of `generate_full_solution()` (source lines 90-93). -/
def generate_full_solution (o : Board → List Nat) : Board :=
  (solve_backtrack o zeroBoard).2

/-- Embedding of the removal loop of `generate_puzzle` (source lines
104-116): `cells` is the shuffled list of candidate positions and `removed`
the count of successful removals; the loop breaks once `removed` reaches the
target.  A removal is kept only when the probe copy still counts exactly one
solution, otherwise the cell is restored to its previous value. -/
def removeLoop : List (Nat × Nat) → Nat → Nat → Board → Board
  | [], _, _, puzzle => puzzle
  | (i, j) :: rest, removed, removals, puzzle =>
    if removals ≤ removed then puzzle
    else if (count_solutions (setCell puzzle i j 0) 2).1 = 1 then
      removeLoop rest (removed + 1) removals (setCell puzzle i j 0)
    else
      removeLoop rest removed removals
        (setCell (setCell puzzle i j 0) i j (puzzle i j))

/-- Embedding of `generate_puzzle(removals)` (source lines 95-118), with the
solver shuffles given by `o` and the shuffled candidate-position list given
by `cells`.  Returns (puzzle, solution). -/
def generate_puzzle (o : Board → List Nat) (cells : List (Nat × Nat))
    (removals : Nat) : Board × Board :=
  (removeLoop cells 0 removals (generate_full_solution o),
   generate_full_solution o)

def oStd : Board → List Nat := fun _ => [1, 2, 3, 4]

/-- A board whose only nonzero cell is a 1 at (0,0). -/
def pinBoard : Board := boardOfRows [[1]]

/-- A grid on which the bounded counter overshoots its limit: the first empty
cell is (0,1); candidate 2 leads to a uniquely completable grid (contributing
1) and candidate 3 then contributes 2 more before the break. -/
def overshootGrid : Board :=
  boardOfRows [[4,0,1,0],[0,0,0,0],[0,1,0,0],[0,0,2,0]]

def overshootSolA : Board :=
  boardOfRows [[4,2,1,3],[1,3,4,2],[2,1,3,4],[3,4,2,1]]

def overshootSolB : Board :=
  boardOfRows [[4,3,1,2],[1,2,3,4],[2,1,4,3],[3,4,2,1]]

/-- All cells hold 1 except the empty corner (0,0): the board violates the
row/column constraints, yet the solver can fill the corner with 2. -/
def onesHole : Board :=
  boardOfRows [[0,1,1,1],[1,1,1,1],[1,1,1,1],[1,1,1,1]]

/-- An unsolvable grid: cell (0,3) has no candidate (row holds 1,2,3 and the
column holds 4). -/
def stuckBoard : Board := boardOfRows [[1,2,3,0],[0,0,0,4]]

/-- The complete but invalid all-ones board. -/
def onesBoard : Board := fun _ _ => 1

/-! ## Theorems -/

theorem setCell_same (b : Board) (r c v : Nat) : setCell b r c v r c = v := by
  simp [setCell]

theorem setCell_of_ne (b : Board) (r c v i j : Nat) (h : ¬(i = r ∧ j = c)) :
    setCell b r c v i j = b i j := by
  simp [setCell, h]

theorem setCell_setCell (b : Board) (r c v w : Nat) :
    setCell (setCell b r c v) r c w = setCell b r c w := by
  funext i j
  by_cases h : i = r ∧ j = c <;> simp [setCell, h]

theorem setCell_own (b : Board) (r c : Nat) : setCell b r c (b r c) = b := by
  funext i j
  by_cases h : i = r ∧ j = c
  · obtain ⟨rfl, rfl⟩ := h
    simp [setCell]
  · simp [setCell, h]

theorem setCell_restore (b : Board) (r c v : Nat) (h : b r c = 0) :
    setCell (setCell b r c v) r c 0 = b := by
  rw [setCell_setCell, ← h, setCell_own]

theorem isValid_iff (b : Board) (r c v : Nat) :
    isValid b r c v = true ↔
      (∀ j < 4, b r j ≠ v) ∧ (∀ i < 4, b i c ≠ v) ∧
      (∀ i < 2, ∀ j < 2, b (r / 2 * 2 + i) (c / 2 * 2 + j) ≠ v) := by
  simp [isValid]

theorem isValid_self {b : Board} {r c v : Nat} (h : isValid b r c v = true)
    (hc : c < 4) : b r c ≠ v :=
  ((isValid_iff b r c v).1 h).1 c hc

theorem boardComplete_iff (b : Board) :
    boardComplete b = true ↔ ∀ i < 4, ∀ j < 4, b i j ≠ 0 := by
  simp [boardComplete]

theorem boardValid_iff (b : Board) :
    boardValid b = true ↔
      (∀ i < 4, ∀ u < 4, ∀ w < 4, u = w ∨ b i u = 0 ∨ b i u ≠ b i w) ∧
      (∀ j < 4, ∀ u < 4, ∀ w < 4, u = w ∨ b u j = 0 ∨ b u j ≠ b w j) ∧
      boxesProp b := by
  simp [boardValid]

theorem boardValid_row {b : Board} (h : boardValid b = true) {i u w : Nat}
    (hi : i < 4) (hu : u < 4) (hw : w < 4) (hne : u ≠ w) (h0 : b i u ≠ 0) :
    b i u ≠ b i w := by
  rcases ((boardValid_iff b).1 h).1 i hi u hu w hw with h' | h' | h' <;> tauto

theorem boardValid_col {b : Board} (h : boardValid b = true) {j u w : Nat}
    (hj : j < 4) (hu : u < 4) (hw : w < 4) (hne : u ≠ w) (h0 : b u j ≠ 0) :
    b u j ≠ b w j := by
  rcases ((boardValid_iff b).1 h).2.1 j hj u hu w hw with h' | h' | h' <;> tauto

theorem boardValid_box {b : Board} (h : boardValid b = true) {r c r' c' : Nat}
    (hr : r < 4) (hc : c < 4)
    (hbr : r / 2 = r' / 2) (hbc : c / 2 = c' / 2)
    (hne : ¬(r = r' ∧ c = c')) (h0 : b r c ≠ 0) : b r c ≠ b r' c' := by
  have hb := ((boardValid_iff b).1 h).2.2
  have h2 := hb (r / 2) (by omega) (c / 2) (by omega) (r % 2) (by omega)
    (c % 2) (by omega) (r' % 2) (by omega) (c' % 2) (by omega)
  have e1 : 2 * (r / 2) + r % 2 = r := by omega
  have e2 : 2 * (c / 2) + c % 2 = c := by omega
  have e3 : 2 * (r / 2) + r' % 2 = r' := by omega
  have e4 : 2 * (c / 2) + c' % 2 = c' := by omega
  rw [e1, e2, e3, e4] at h2
  rcases h2 with h' | h' | h'
  · exact absurd (by omega) hne
  · exact absurd h' h0
  · exact h'

theorem mem_allCells (i j : Nat) : (i, j) ∈ allCells ↔ i < 4 ∧ j < 4 := by
  constructor
  · intro h
    fin_cases h <;> omega
  · rintro ⟨h1, h2⟩
    interval_cases i <;> interval_cases j <;> decide

theorem findEmpty_some {b : Board} {r c : Nat} (h : findEmpty b = some (r, c)) :
    r < 4 ∧ c < 4 ∧ b r c = 0 := by
  have hm := List.mem_of_find?_eq_some h
  have hp := List.find?_some h
  have hrc := (mem_allCells r c).1 hm
  exact ⟨hrc.1, hrc.2, by simpa using hp⟩

theorem findEmpty_none {b : Board} (h : findEmpty b = none) :
    ∀ i < 4, ∀ j < 4, b i j ≠ 0 := by
  intro i hi j hj
  have := List.find?_eq_none.1 h (i, j) ((mem_allCells i j).2 ⟨hi, hj⟩)
  simpa using this

theorem findEmpty_of_complete {b : Board} (h : boardComplete b = true) :
    findEmpty b = none := by
  rw [findEmpty, List.find?_eq_none]
  intro p hp
  obtain ⟨i, j⟩ := p
  have hij := (mem_allCells i j).1 hp
  have := (boardComplete_iff b).1 h i hij.1 j hij.2
  simpa using this

theorem complete_of_findEmpty_none {b : Board} (h : findEmpty b = none) :
    boardComplete b = true :=
  (boardComplete_iff b).2 (findEmpty_none h)

theorem numZeros_of_complete {b : Board} (h : boardComplete b = true) :
    numZeros b = 0 := by
  rw [numZeros, Finset.card_eq_zero, Finset.filter_eq_empty_iff]
  intro p hp
  rw [Finset.mem_product, Finset.mem_range, Finset.mem_range] at hp
  exact (boardComplete_iff b).1 h p.1 hp.1 p.2 hp.2

theorem numZeros_setCell_lt {b : Board} {r c v : Nat} (hr : r < 4) (hc : c < 4)
    (h0 : b r c = 0) (hv : v ≠ 0) : numZeros (setCell b r c v) < numZeros b := by
  apply Finset.card_lt_card
  rw [Finset.ssubset_iff_of_subset]
  · refine ⟨(r, c), ?_, ?_⟩
    · rw [Finset.mem_filter, Finset.mem_product, Finset.mem_range, Finset.mem_range]
      exact ⟨⟨hr, hc⟩, h0⟩
    · rw [Finset.mem_filter]
      intro hmem
      have := hmem.2
      rw [setCell_same] at this
      exact hv this
  · intro p hp
    rw [Finset.mem_filter] at hp ⊢
    refine ⟨hp.1, ?_⟩
    by_cases hpc : p.1 = r ∧ p.2 = c
    · exfalso
      have h2 := hp.2
      rw [hpc.1, hpc.2, setCell_same] at h2
      exact hv h2
    · have h2 := hp.2
      rwa [setCell_of_ne _ _ _ _ _ _ hpc] at h2

theorem numZeros_setCell_le (b : Board) (r c v : Nat) :
    numZeros (setCell b r c v) ≤ numZeros b + 1 := by
  have hsub : ((Finset.range 4 ×ˢ Finset.range 4).filter
      fun p => setCell b r c v p.1 p.2 = 0) ⊆
      insert (r, c) ((Finset.range 4 ×ˢ Finset.range 4).filter
        fun p => b p.1 p.2 = 0) := by
    intro p hp
    rw [Finset.mem_filter] at hp
    by_cases hpc : p.1 = r ∧ p.2 = c
    · rw [Finset.mem_insert]
      left
      exact Prod.ext hpc.1 hpc.2
    · rw [Finset.mem_insert, Finset.mem_filter]
      right
      refine ⟨hp.1, ?_⟩
      have h2 := hp.2
      rwa [setCell_of_ne _ _ _ _ _ _ hpc] at h2
  calc numZeros (setCell b r c v) ≤ _ := Finset.card_le_card hsub
    _ ≤ numZeros b + 1 := Finset.card_insert_le _ _

theorem tryVals_restore {next : Board → Bool × Board} {r c : Nat}
    (hnext : ∀ b', (next b').1 = false → (next b').2 = b') :
    ∀ (vs : List Nat) (b : Board), b r c = 0 →
      (tryVals next r c b vs).1 = false → (tryVals next r c b vs).2 = b := by
  intro vs
  induction vs with
  | nil => intro b h0 hf; simp [tryVals]
  | cons v vs ih =>
    intro b h0 hf
    by_cases hv : isValid b r c v
    · rcases hres : next (setCell b r c v) with ⟨flag, b'⟩
      cases flag
      · have hb' : b' = setCell b r c v := by
          have h2 := hnext (setCell b r c v) (by rw [hres])
          rw [hres] at h2
          exact h2
        have hstep : tryVals next r c b (v :: vs) =
            tryVals next r c (setCell b' r c 0) vs := by
          simp [tryVals, hv, hres]
        rw [hstep, hb', setCell_restore _ _ _ _ h0] at hf ⊢
        exact ih b h0 hf
      · exfalso
        have h2 : (tryVals next r c b (v :: vs)).1 = true := by
          simp [tryVals, hv, hres]
        rw [hf] at h2
        exact Bool.false_ne_true h2
    · have hstep : tryVals next r c b (v :: vs) = tryVals next r c b vs := by
        simp [tryVals, hv]
      rw [hstep] at hf ⊢
      exact ih b h0 hf

theorem solveB_restore (o : Board → List Nat) :
    ∀ (fuel : Nat) (b : Board),
      (solveB o fuel b).1 = false → (solveB o fuel b).2 = b := by
  intro fuel
  induction fuel with
  | zero => intro b _; simp [solveB]
  | succ fuel ih =>
    intro b h
    rcases hE : findEmpty b with _ | ⟨r, c⟩
    · exfalso
      simp [solveB, hE] at h
    · have h0 := (findEmpty_some hE).2.2
      have hstep : solveB o (fuel+1) b =
          tryVals (fun b' => solveB o fuel b') r c b (o b) := by
        simp [solveB, hE]
      rw [hstep] at h ⊢
      exact tryVals_restore (fun b' hb' => ih b' hb') (o b) b h0 h

theorem countVals_restore {next : Board → Nat × Board} {limit r c : Nat}
    (hnext : ∀ b', (next b').2 = b') :
    ∀ (vs : List Nat) (b : Board) (total : Nat), b r c = 0 →
      (countVals next limit r c b vs total).2 = b := by
  intro vs
  induction vs with
  | nil => intro b total h0; simp [countVals]
  | cons v vs ih =>
    intro b total h0
    by_cases hv : isValid b r c v
    · rcases hres : next (setCell b r c v) with ⟨n, b'⟩
      have hb' : b' = setCell b r c v := by
        have h2 := hnext (setCell b r c v)
        rw [hres] at h2
        exact h2
      by_cases hlim : limit ≤ total + n
      · have hstep : countVals next limit r c b (v :: vs) total =
            (total + n, setCell b' r c 0) := by
          simp [countVals, hv, hres, hlim]
        rw [hstep, hb', setCell_restore _ _ _ _ h0]
      · have hstep : countVals next limit r c b (v :: vs) total =
            countVals next limit r c (setCell b' r c 0) vs (total + n) := by
          simp [countVals, hv, hres, hlim]
        rw [hstep, hb', setCell_restore _ _ _ _ h0]
        exact ih b (total + n) h0
    · have hstep : countVals next limit r c b (v :: vs) total =
          countVals next limit r c b vs total := by
        simp [countVals, hv]
      rw [hstep]
      exact ih b total h0

theorem countSol_restore : ∀ (fuel limit : Nat) (b : Board),
    (countSol fuel limit b).2 = b := by
  intro fuel
  induction fuel with
  | zero => intro limit b; simp [countSol]
  | succ fuel ih =>
    intro limit b
    rcases hE : findEmpty b with _ | ⟨r, c⟩
    · simp [countSol, hE]
    · have h0 := (findEmpty_some hE).2.2
      have hstep : countSol (fuel+1) limit b =
          countVals (fun b' => countSol fuel limit b') limit r c b [1,2,3,4] 0 := by
        simp [countSol, hE]
      rw [hstep]
      exact countVals_restore (fun b' => ih limit b') [1,2,3,4] b 0 h0

/-- Placing a value that passes `is_valid` keeps the board free of duplicate
nonzero values in every unit. -/
theorem boardValid_setCell {b : Board} {r c v : Nat} (hb : boardValid b = true)
    (hv : isValid b r c v = true) (hr : r < 4) (hc : c < 4) :
    boardValid (setCell b r c v) = true := by
  obtain ⟨hrow, hcol, hbox⟩ := (isValid_iff b r c v).1 hv
  rw [boardValid_iff]
  refine ⟨?_, ?_, ?_⟩
  · intro i hi u hu w hw
    by_cases huw : u = w
    · exact Or.inl huw
    by_cases hx : i = r ∧ u = c
    · rw [hx.1, hx.2, setCell_same,
        setCell_of_ne _ _ _ _ _ _ (fun hcon => huw (hx.2.trans hcon.2.symm))]
      by_cases hv0 : v = 0
      · exact Or.inr (Or.inl hv0)
      · exact Or.inr (Or.inr fun heq => hrow w hw heq.symm)
    · by_cases hy : i = r ∧ w = c
      · rw [hy.1, hy.2, setCell_same,
          setCell_of_ne _ _ _ _ _ _ (fun hcon => hx ⟨hy.1, hcon.2⟩)]
        by_cases hbu : b r u = 0
        · exact Or.inr (Or.inl hbu)
        · exact Or.inr (Or.inr (hrow u hu))
      · rw [setCell_of_ne _ _ _ _ _ _ hx, setCell_of_ne _ _ _ _ _ _ hy]
        exact ((boardValid_iff b).1 hb).1 i hi u hu w hw
  · intro j hj u hu w hw
    by_cases huw : u = w
    · exact Or.inl huw
    by_cases hx : u = r ∧ j = c
    · rw [hx.1, hx.2, setCell_same,
        setCell_of_ne _ _ _ _ _ _ (fun hcon => huw (hx.1.trans hcon.1.symm))]
      by_cases hv0 : v = 0
      · exact Or.inr (Or.inl hv0)
      · exact Or.inr (Or.inr fun heq => hcol w hw heq.symm)
    · by_cases hy : w = r ∧ j = c
      · rw [hy.1, hy.2, setCell_same,
          setCell_of_ne _ _ _ _ _ _ (fun hcon => hx ⟨hcon.1, hy.2⟩)]
        by_cases hbu : b u c = 0
        · exact Or.inr (Or.inl hbu)
        · exact Or.inr (Or.inr (hcol u hu))
      · rw [setCell_of_ne _ _ _ _ _ _ hx, setCell_of_ne _ _ _ _ _ _ hy]
        exact ((boardValid_iff b).1 hb).2.1 j hj u hu w hw
  · intro p hp q hq u hu w hw
    intro u' hu' w' hw'
    by_cases hco : u = u' ∧ w = w'
    · exact Or.inl hco
    by_cases hx : 2*p+u = r ∧ 2*q+w = c
    · rw [hx.1, hx.2, setCell_same,
        setCell_of_ne _ _ _ _ _ _ (fun hcon => hco ⟨by omega, by omega⟩)]
      by_cases hv0 : v = 0
      · exact Or.inr (Or.inl hv0)
      · refine Or.inr (Or.inr ?_)
        have ha1 : 2*p+u' = r/2*2 + u' := by omega
        have ha2 : 2*q+w' = c/2*2 + w' := by omega
        rw [ha1, ha2]
        exact fun heq => hbox u' hu' w' hw' heq.symm
    · by_cases hy : 2*p+u' = r ∧ 2*q+w' = c
      · rw [hy.1, hy.2, setCell_same, setCell_of_ne _ _ _ _ _ _ hx]
        by_cases hb0 : b (2*p+u) (2*q+w) = 0
        · exact Or.inr (Or.inl hb0)
        · refine Or.inr (Or.inr ?_)
          have ha1 : 2*p+u = r/2*2 + u := by omega
          have ha2 : 2*q+w = c/2*2 + w := by omega
          rw [ha1, ha2]
          exact hbox u hu w hw
      · rw [setCell_of_ne _ _ _ _ _ _ hx, setCell_of_ne _ _ _ _ _ _ hy]
        exact ((boardValid_iff b).1 hb).2.2 p hp q hq u hu w hw u' hu' w' hw'

theorem SolvedFrom.refl_of_complete {b : Board} (h : boardComplete b = true) :
    SolvedFrom b b :=
  ⟨h, fun _ _ _ => rfl, fun _ _ _ => rfl, fun h' => h',
   fun i _ j _ => Or.inl rfl⟩

theorem SolvedFrom.step {b s : Board} {r c v : Nat} (hr : r < 4) (hc : c < 4)
    (h0 : b r c = 0) (hv : isValid b r c v = true) (hv4 : v ≤ 4)
    (hs : SolvedFrom (setCell b r c v) s) : SolvedFrom b s := by
  obtain ⟨hcomp, hext, hout, hval, hrange⟩ := hs
  have hv0 : v ≠ 0 := fun hv0 => (isValid_self hv hc) (hv0 ▸ h0)
  refine ⟨hcomp, ?_, ?_, ?_, ?_⟩
  · intro i j hij
    have hne : ¬(i = r ∧ j = c) := by
      rintro ⟨rfl, rfl⟩
      exact hij h0
    rw [← setCell_of_ne b r c v i j hne] at hij ⊢
    exact hext i j hij
  · intro i j hij
    have hne : ¬(i = r ∧ j = c) := by
      rintro ⟨rfl, rfl⟩
      omega
    rw [← setCell_of_ne b r c v i j hne]
    exact hout i j hij
  · intro hvb
    exact hval (boardValid_setCell hvb hv hr hc)
  · intro i hi j hj
    by_cases hij : i = r ∧ j = c
    · obtain ⟨rfl, rfl⟩ := hij
      right
      have hsv := hext i j (by rw [setCell_same]; exact hv0)
      rw [setCell_same] at hsv
      omega
    · rcases hrange i hi j hj with h' | h'
      · left
        rwa [setCell_of_ne _ _ _ _ _ _ hij] at h'
      · right
        rwa [setCell_of_ne _ _ _ _ _ _ hij] at h'

theorem tryVals_sound {next : Board → Bool × Board} {r c : Nat}
    (hr : r < 4) (hc : c < 4)
    (hnext : ∀ b', (next b').1 = true → SolvedFrom b' (next b').2)
    (hnextR : ∀ b', (next b').1 = false → (next b').2 = b') :
    ∀ (vs : List Nat) (b : Board), b r c = 0 → (∀ v ∈ vs, v ≤ 4) →
      (tryVals next r c b vs).1 = true →
      SolvedFrom b (tryVals next r c b vs).2 := by
  intro vs
  induction vs with
  | nil => intro b h0 _ ht; simp [tryVals] at ht
  | cons v vs ih =>
    intro b h0 hv4 ht
    by_cases hv : isValid b r c v
    · rcases hres : next (setCell b r c v) with ⟨flag, b'⟩
      cases flag
      · have hb' : b' = setCell b r c v := by
          have h2 := hnextR (setCell b r c v) (by rw [hres])
          rw [hres] at h2
          exact h2
        have hstep : tryVals next r c b (v :: vs) =
            tryVals next r c (setCell b' r c 0) vs := by
          simp [tryVals, hv, hres]
        rw [hstep, hb', setCell_restore _ _ _ _ h0] at ht ⊢
        exact ih b h0 (fun w hw => hv4 w (List.mem_cons_of_mem _ hw)) ht
      · have hstep : tryVals next r c b (v :: vs) = (true, b') := by
          simp [tryVals, hv, hres]
        rw [hstep]
        have hsf : SolvedFrom (setCell b r c v) b' := by
          have h2 := hnext (setCell b r c v) (by rw [hres])
          rwa [hres] at h2
        exact SolvedFrom.step hr hc h0 hv (hv4 v (List.mem_cons_self _ _)) hsf
    · have hstep : tryVals next r c b (v :: vs) = tryVals next r c b vs := by
        simp [tryVals, hv]
      rw [hstep] at ht ⊢
      exact ih b h0 (fun w hw => hv4 w (List.mem_cons_of_mem _ hw)) ht

theorem solveB_sound {o : Board → List Nat} (ho : ∀ b v, v ∈ o b → v ≤ 4) :
    ∀ (fuel : Nat) (b : Board), (solveB o fuel b).1 = true →
      SolvedFrom b (solveB o fuel b).2 := by
  intro fuel
  induction fuel with
  | zero => intro b h; simp [solveB] at h
  | succ fuel ih =>
    intro b h
    rcases hE : findEmpty b with _ | ⟨r, c⟩
    · have hstep : solveB o (fuel+1) b = (true, b) := by simp [solveB, hE]
      rw [hstep]
      exact SolvedFrom.refl_of_complete (complete_of_findEmpty_none hE)
    · obtain ⟨hr, hc, h0⟩ := findEmpty_some hE
      have hstep : solveB o (fuel+1) b =
          tryVals (fun b' => solveB o fuel b') r c b (o b) := by
        simp [solveB, hE]
      rw [hstep] at h ⊢
      exact tryVals_sound hr hc (fun b' hb' => ih b' hb')
        (fun b' hb' => solveB_restore o fuel b' hb') (o b) b h0
        (fun v hv => ho b v hv) h

/-- At an empty cell of `g`, the value a completion `s` holds there passes
`is_valid` on `g`. -/
theorem isValid_of_completion {g s : Board} (hs : isCompletion g s)
    {r c : Nat} (hr : r < 4) (hc : c < 4) (h0 : g r c = 0) :
    isValid g r c (s r c) = true := by
  obtain ⟨hrange, hvalid, hext⟩ := hs
  rw [isValid_iff]
  have hsrc := hrange r hr c hc
  refine ⟨?_, ?_, ?_⟩
  · intro j hj heq
    by_cases hgz : g r j = 0
    · rw [hgz] at heq
      omega
    · have hsj : s r j = g r j := hext r hr j hj hgz
      have hjc : j ≠ c := fun hjc => hgz (hjc ▸ h0)
      have hdup : s r j ≠ s r c :=
        boardValid_row hvalid hr hj hc hjc (by rw [hsj]; exact hgz)
      exact hdup (hsj.trans heq)
  · intro i hi heq
    by_cases hgz : g i c = 0
    · rw [hgz] at heq
      omega
    · have hsi : s i c = g i c := hext i hi c hc hgz
      have hic : i ≠ r := fun hic => hgz (hic ▸ h0)
      have hdup : s i c ≠ s r c :=
        boardValid_col hvalid hc hi hr hic (by rw [hsi]; exact hgz)
      exact hdup (hsi.trans heq)
  · intro i hi j hj heq
    by_cases hgz : g (r/2*2+i) (c/2*2+j) = 0
    · rw [hgz] at heq
      omega
    · have hlt1 : r/2*2+i < 4 := by omega
      have hlt2 : c/2*2+j < 4 := by omega
      have hsx : s (r/2*2+i) (c/2*2+j) = g (r/2*2+i) (c/2*2+j) :=
        hext _ hlt1 _ hlt2 hgz
      have hne : ¬(r/2*2+i = r ∧ c/2*2+j = c) := fun hcon =>
        hgz (by rw [hcon.1, hcon.2]; exact h0)
      have hdup : s (r/2*2+i) (c/2*2+j) ≠ s r c :=
        boardValid_box hvalid hlt1 hlt2 (by omega) (by omega) hne
          (by rw [hsx]; exact hgz)
      exact hdup (hsx.trans heq)

/-- A completion of `g` is still a completion after `g` takes one of the
completion's own values. -/
theorem isCompletion_setCell {g s : Board} (hs : isCompletion g s)
    {r c : Nat} (hr : r < 4) (hc : c < 4) :
    isCompletion (setCell g r c (s r c)) s := by
  obtain ⟨hrange, hvalid, hext⟩ := hs
  refine ⟨hrange, hvalid, ?_⟩
  intro i hi j hj hij
  by_cases hijc : i = r ∧ j = c
  · rw [hijc.1, hijc.2, setCell_same]
  · rw [setCell_of_ne _ _ _ _ _ _ hijc] at hij ⊢
    exact hext i hi j hj hij

theorem tryVals_complete {next : Board → Bool × Board} {r c : Nat}
    (hnextR : ∀ b', (next b').1 = false → (next b').2 = b') :
    ∀ (vs : List Nat) (b : Board), b r c = 0 →
      ∀ v0 ∈ vs, isValid b r c v0 = true →
        (next (setCell b r c v0)).1 = true →
        (tryVals next r c b vs).1 = true := by
  intro vs
  induction vs with
  | nil => intro b h0 v0 hv0 _ _; exact absurd hv0 (List.not_mem_nil v0)
  | cons v vs ih =>
    intro b h0 v0 hv0mem hvalid hsucc
    by_cases hv : isValid b r c v
    · rcases hres : next (setCell b r c v) with ⟨flag, b'⟩
      cases flag
      · have hb' : b' = setCell b r c v := by
          have h2 := hnextR _ (by rw [hres])
          rwa [hres] at h2
        have hstep : tryVals next r c b (v :: vs) =
            tryVals next r c (setCell b' r c 0) vs := by
          simp [tryVals, hv, hres]
        rw [hstep, hb', setCell_restore _ _ _ _ h0]
        rcases List.mem_cons.1 hv0mem with rfl | hmem
        · exfalso
          rw [hres] at hsucc
          exact Bool.false_ne_true hsucc
        · exact ih b h0 v0 hmem hvalid hsucc
      · simp [tryVals, hv, hres]
    · have hstep : tryVals next r c b (v :: vs) = tryVals next r c b vs := by
        simp [tryVals, hv]
      rw [hstep]
      rcases List.mem_cons.1 hv0mem with rfl | hmem
      · exact absurd hvalid hv
      · exact ih b h0 v0 hmem hvalid hsucc

theorem solveB_complete {o : Board → List Nat}
    (ho : ∀ b v, 1 ≤ v → v ≤ 4 → v ∈ o b) :
    ∀ (fuel : Nat) (b : Board), numZeros b < fuel →
      (∃ s, isCompletion b s) → (solveB o fuel b).1 = true := by
  intro fuel
  induction fuel with
  | zero => intro b hlt _; omega
  | succ fuel ih =>
    rintro b hlt ⟨s, hs⟩
    rcases hE : findEmpty b with _ | ⟨r, c⟩
    · simp [solveB, hE]
    · obtain ⟨hr, hc, h0⟩ := findEmpty_some hE
      have hstep : solveB o (fuel+1) b =
          tryVals (fun b' => solveB o fuel b') r c b (o b) := by
        simp [solveB, hE]
      rw [hstep]
      have hsrc := hs.1 r hr c hc
      have hvmem : s r c ∈ o b := ho b (s r c) hsrc.1 hsrc.2
      have hvalid : isValid b r c (s r c) = true :=
        isValid_of_completion hs hr hc h0
      have hchild : (solveB o fuel (setCell b r c (s r c))).1 = true := by
        apply ih
        · have := numZeros_setCell_lt hr hc h0 (by omega : s r c ≠ 0)
          omega
        · exact ⟨s, isCompletion_setCell hs hr hc⟩
      exact tryVals_complete (fun b' hb' => solveB_restore o fuel b' hb')
        (o b) b h0 (s r c) hvmem hvalid hchild

theorem countVals_total_le {next : Board → Nat × Board} {limit r c : Nat} :
    ∀ (vs : List Nat) (b : Board) (total : Nat),
      total ≤ (countVals next limit r c b vs total).1 := by
  intro vs
  induction vs with
  | nil => intro b total; simp [countVals]
  | cons v vs ih =>
    intro b total
    by_cases hv : isValid b r c v
    · rcases hres : next (setCell b r c v) with ⟨n, b'⟩
      by_cases hlim : limit ≤ total + n
      · have hstep : countVals next limit r c b (v :: vs) total =
            (total + n, setCell b' r c 0) := by
          simp [countVals, hv, hres, hlim]
        rw [hstep]
        exact Nat.le_add_right total n
      · have hstep : countVals next limit r c b (v :: vs) total =
            countVals next limit r c (setCell b' r c 0) vs (total + n) := by
          simp [countVals, hv, hres, hlim]
        rw [hstep]
        exact le_trans (Nat.le_add_right total n) (ih _ _)
    · have hstep : countVals next limit r c b (v :: vs) total =
          countVals next limit r c b vs total := by
        simp [countVals, hv]
      rw [hstep]
      exact ih b total

/-- The loop of `count_solutions` accumulates at least the contributions of
any sub-multiset `l` of candidates that all pass `is_valid`, up to the early
break at `limit`. -/
theorem countVals_ge {next : Board → Nat × Board} {limit r c : Nat}
    (hnextR : ∀ b', (next b').2 = b') :
    ∀ (vs l : List Nat) (b : Board) (total : Nat), b r c = 0 →
      l.Sublist vs → (∀ v ∈ l, isValid b r c v = true) →
      min limit (total + (l.map fun v => (next (setCell b r c v)).1).sum) ≤
        (countVals next limit r c b vs total).1 := by
  intro vs
  induction vs with
  | nil =>
    intro l b total h0 hsub hval
    rw [List.sublist_nil.1 hsub]
    simp [countVals]
  | cons v vs ih =>
    intro l b total h0 hsub hval
    cases hsub with
    | cons _ hsub' =>
      by_cases hv : isValid b r c v
      · rcases hres : next (setCell b r c v) with ⟨n, b'⟩
        have hb' : b' = setCell b r c v := by
          have h2 := hnextR (setCell b r c v)
          rwa [hres] at h2
        by_cases hlim : limit ≤ total + n
        · have hstep : countVals next limit r c b (v :: vs) total =
              (total + n, setCell b' r c 0) := by
            simp [countVals, hv, hres, hlim]
          rw [hstep]
          have := min_le_left limit
            (total + (l.map fun w => (next (setCell b r c w)).1).sum)
          omega
        · have hstep : countVals next limit r c b (v :: vs) total =
              countVals next limit r c (setCell b' r c 0) vs (total + n) := by
            simp [countVals, hv, hres, hlim]
          rw [hstep, hb', setCell_restore _ _ _ _ h0]
          have hrec := ih l b (total + n) h0 hsub' hval
          omega
      · have hstep : countVals next limit r c b (v :: vs) total =
            countVals next limit r c b vs total := by
          simp [countVals, hv]
        rw [hstep]
        exact ih l b total h0 hsub' hval
    | @cons₂ ltail _ _ hsub' =>
      have hvv : isValid b r c v = true := hval v (List.mem_cons_self _ _)
      rcases hres : next (setCell b r c v) with ⟨n, b'⟩
      have hb' : b' = setCell b r c v := by
        have h2 := hnextR (setCell b r c v)
        rwa [hres] at h2
      have hsum : ((v :: ltail).map fun w => (next (setCell b r c w)).1).sum =
          n + (ltail.map fun w => (next (setCell b r c w)).1).sum := by
        simp [hres]
      by_cases hlim : limit ≤ total + n
      · have hstep : countVals next limit r c b (v :: vs) total =
            (total + n, setCell b' r c 0) := by
          simp [countVals, hvv, hres, hlim]
        rw [hstep, hsum]
        have := min_le_left limit
          (total + (n + (ltail.map fun w => (next (setCell b r c w)).1).sum))
        omega
      · have hstep : countVals next limit r c b (v :: vs) total =
            countVals next limit r c (setCell b' r c 0) vs (total + n) := by
          simp [countVals, hvv, hres, hlim]
        rw [hstep, hb', setCell_restore _ _ _ _ h0, hsum]
        have hrec := ih ltail b (total + n) h0 hsub'
          (fun w hw => hval w (List.mem_cons_of_mem _ hw))
        omega

theorem mem_candidates {v : Nat} (h1 : 1 ≤ v) (h4 : v ≤ 4) :
    v ∈ [1, 2, 3, 4] := by
  interval_cases v <;> decide

theorem pair_sublist_candidates {v1 v2 : Nat} (h1 : 1 ≤ v1) (h12 : v1 < v2)
    (h4 : v2 ≤ 4) : [v1, v2].Sublist [1, 2, 3, 4] := by
  have hu : v1 ≤ 3 := by omega
  interval_cases v1 <;> interval_cases v2 <;> decide

/-- A grid with a completion contributes at least one to the bounded count. -/
theorem countSol_ge_one : ∀ (fuel limit : Nat) (b s : Board),
    numZeros b < fuel → 1 ≤ limit → isCompletion b s →
    1 ≤ (countSol fuel limit b).1 := by
  intro fuel
  induction fuel with
  | zero => intro limit b s hlt _ _; omega
  | succ fuel ih =>
    intro limit b s hlt hlim hs
    rcases hE : findEmpty b with _ | ⟨r, c⟩
    · simp [countSol, hE]
    · obtain ⟨hr, hc, h0⟩ := findEmpty_some hE
      have hstep : countSol (fuel+1) limit b =
          countVals (fun b' => countSol fuel limit b') limit r c b
            [1,2,3,4] 0 := by
        simp [countSol, hE]
      rw [hstep]
      have hsrc := hs.1 r hr c hc
      have hvalid : isValid b r c (s r c) = true :=
        isValid_of_completion hs hr hc h0
      have hsubl : [s r c].Sublist [1,2,3,4] :=
        List.singleton_sublist.2 (mem_candidates hsrc.1 hsrc.2)
      have hchild : 1 ≤ (countSol fuel limit (setCell b r c (s r c))).1 := by
        apply ih limit _ s _ hlim (isCompletion_setCell hs hr hc)
        have := numZeros_setCell_lt hr hc h0 (by omega : s r c ≠ 0)
        omega
      have hge := @countVals_ge (fun b' => countSol fuel limit b') limit r c
        (fun b' => countSol_restore fuel limit b')
        [1,2,3,4] [s r c] b 0 h0 hsubl (by simpa using hvalid)
      simp only [List.map_cons, List.map_nil, List.sum_cons, List.sum_nil] at hge
      omega

/-- A grid with two completions that differ inside the region contributes at
least two to the bounded count (when `limit` allows it). -/
theorem countSol_ge_two : ∀ (fuel limit : Nat) (b s1 s2 : Board),
    numZeros b < fuel → 2 ≤ limit →
    isCompletion b s1 → isCompletion b s2 →
    (∃ i, i < 4 ∧ ∃ j, j < 4 ∧ s1 i j ≠ s2 i j) →
    2 ≤ (countSol fuel limit b).1 := by
  intro fuel
  induction fuel with
  | zero => intro limit b s1 s2 hlt _ _ _ _; omega
  | succ fuel ih =>
    intro limit b s1 s2 hlt hlim h1 h2 hdiff
    rcases hE : findEmpty b with _ | ⟨r, c⟩
    · exfalso
      obtain ⟨i, hi, j, hj, hne⟩ := hdiff
      have hbz := findEmpty_none hE i hi j hj
      have e1 := h1.2.2 i hi j hj hbz
      have e2 := h2.2.2 i hi j hj hbz
      exact hne (e1.trans e2.symm)
    · obtain ⟨hr, hc, h0⟩ := findEmpty_some hE
      have hstep : countSol (fuel+1) limit b =
          countVals (fun b' => countSol fuel limit b') limit r c b
            [1,2,3,4] 0 := by
        simp [countSol, hE]
      rw [hstep]
      have hs1rc := h1.1 r hr c hc
      have hs2rc := h2.1 r hr c hc
      have hval1 : isValid b r c (s1 r c) = true :=
        isValid_of_completion h1 hr hc h0
      have hval2 : isValid b r c (s2 r c) = true :=
        isValid_of_completion h2 hr hc h0
      have hfuel1 : numZeros (setCell b r c (s1 r c)) < fuel := by
        have := numZeros_setCell_lt hr hc h0 (by omega : s1 r c ≠ 0)
        omega
      have hfuel2 : numZeros (setCell b r c (s2 r c)) < fuel := by
        have := numZeros_setCell_lt hr hc h0 (by omega : s2 r c ≠ 0)
        omega
      rcases Nat.lt_trichotomy (s1 r c) (s2 r c) with hlt12 | heq | hgt
      · -- two different values at the first empty cell
        have hc1 : isCompletion (setCell b r c (s1 r c)) s1 :=
          isCompletion_setCell h1 hr hc
        have hc2 : isCompletion (setCell b r c (s2 r c)) s2 :=
          isCompletion_setCell h2 hr hc
        have hn1 := countSol_ge_one fuel limit _ s1 hfuel1 (by omega) hc1
        have hn2 := countSol_ge_one fuel limit _ s2 hfuel2 (by omega) hc2
        have hsubl := pair_sublist_candidates hs1rc.1 hlt12 hs2rc.2
        have hge := @countVals_ge (fun b' => countSol fuel limit b') limit r c
          (fun b' => countSol_restore fuel limit b')
          [1,2,3,4] [s1 r c, s2 r c] b 0 h0 hsubl ?_
        · simp only [List.map_cons, List.map_nil, List.sum_cons,
            List.sum_nil] at hge
          omega
        · intro w hw
          rcases List.mem_cons.1 hw with rfl | hw'
          · exact hval1
          · rw [List.mem_singleton.1 hw']
            exact hval2
      · -- same value: both completions survive into the same child grid
        have hc1 : isCompletion (setCell b r c (s1 r c)) s1 :=
          isCompletion_setCell h1 hr hc
        have hc2 : isCompletion (setCell b r c (s1 r c)) s2 := by
          rw [heq]
          exact isCompletion_setCell h2 hr hc
        have hchild : 2 ≤ (countSol fuel limit (setCell b r c (s1 r c))).1 :=
          ih limit _ s1 s2 hfuel1 hlim hc1 hc2 hdiff
        have hsubl : [s1 r c].Sublist [1,2,3,4] :=
          List.singleton_sublist.2 (mem_candidates hs1rc.1 hs1rc.2)
        have hge := @countVals_ge (fun b' => countSol fuel limit b') limit r c
          (fun b' => countSol_restore fuel limit b')
          [1,2,3,4] [s1 r c] b 0 h0 hsubl (by simpa using hval1)
        simp only [List.map_cons, List.map_nil, List.sum_cons,
          List.sum_nil] at hge
        omega
      · have hc1 : isCompletion (setCell b r c (s1 r c)) s1 :=
          isCompletion_setCell h1 hr hc
        have hc2 : isCompletion (setCell b r c (s2 r c)) s2 :=
          isCompletion_setCell h2 hr hc
        have hn1 := countSol_ge_one fuel limit _ s1 hfuel1 (by omega) hc1
        have hn2 := countSol_ge_one fuel limit _ s2 hfuel2 (by omega) hc2
        have hsubl := pair_sublist_candidates hs2rc.1 hgt hs1rc.2
        have hge := @countVals_ge (fun b' => countSol fuel limit b') limit r c
          (fun b' => countSol_restore fuel limit b')
          [1,2,3,4] [s2 r c, s1 r c] b 0 h0 hsubl ?_
        · simp only [List.map_cons, List.map_nil, List.sum_cons,
            List.sum_nil] at hge
          omega
        · intro w hw
          rcases List.mem_cons.1 hw with rfl | hw'
          · exact hval2
          · rw [List.mem_singleton.1 hw']
            exact hval1

theorem removeLoop_count (cells : List (Nat × Nat)) :
    ∀ (removed removals : Nat) (p : Board),
      (count_solutions p 2).1 = 1 →
      (count_solutions (removeLoop cells removed removals p) 2).1 = 1 := by
  induction cells with
  | nil => intro removed removals p h; simpa [removeLoop] using h
  | cons cell rest ih =>
    rcases cell with ⟨i, j⟩
    intro removed removals p h
    by_cases hbr : removals ≤ removed
    · simpa [removeLoop, hbr] using h
    · by_cases hacc : (count_solutions (setCell p i j 0) 2).1 = 1
      · simp only [removeLoop, if_neg hbr, if_pos hacc]
        exact ih _ _ _ hacc
      · simp only [removeLoop, if_neg hbr, if_neg hacc]
        rw [setCell_setCell, setCell_own]
        exact ih _ _ _ h

theorem removeLoop_agree (cells : List (Nat × Nat)) :
    ∀ (removed removals : Nat) (p sol : Board),
      (∀ i j, p i j ≠ 0 → p i j = sol i j) →
      ∀ i j, removeLoop cells removed removals p i j ≠ 0 →
        removeLoop cells removed removals p i j = sol i j := by
  induction cells with
  | nil => intro removed removals p sol h; simpa [removeLoop] using h
  | cons cell rest ih =>
    rcases cell with ⟨a, d⟩
    intro removed removals p sol h
    by_cases hbr : removals ≤ removed
    · simpa [removeLoop, hbr] using h
    · by_cases hacc : (count_solutions (setCell p a d 0) 2).1 = 1
      · simp only [removeLoop, if_neg hbr, if_pos hacc]
        apply ih
        intro i j hij
        by_cases hne : i = a ∧ j = d
        · exfalso
          rw [hne.1, hne.2, setCell_same] at hij
          exact hij rfl
        · rw [setCell_of_ne _ _ _ _ _ _ hne] at hij ⊢
          exact h i j hij
      · simp only [removeLoop, if_neg hbr, if_neg hacc]
        rw [setCell_setCell, setCell_own]
        exact ih _ _ _ _ h

theorem removeLoop_zeros (cells : List (Nat × Nat)) :
    ∀ (removed removals : Nat) (p : Board),
      numZeros p ≤ removed → removed ≤ removals →
      numZeros (removeLoop cells removed removals p) ≤ removals := by
  induction cells with
  | nil => intro removed removals p h1 h2; simp [removeLoop]; omega
  | cons cell rest ih =>
    rcases cell with ⟨i, j⟩
    intro removed removals p h1 h2
    by_cases hbr : removals ≤ removed
    · simp only [removeLoop, if_pos hbr]
      omega
    · by_cases hacc : (count_solutions (setCell p i j 0) 2).1 = 1
      · simp only [removeLoop, if_neg hbr, if_pos hacc]
        apply ih
        · have := numZeros_setCell_le p i j 0
          omega
        · omega
      · simp only [removeLoop, if_neg hbr, if_neg hacc]
        rw [setCell_setCell, setCell_own]
        exact ih _ _ _ h1 h2

theorem perm_oracle_le {o : Board → List Nat}
    (ho : ∀ b, (o b).Perm [1, 2, 3, 4]) : ∀ b v, v ∈ o b → v ≤ 4 := by
  intro b v hv
  have h2 := (ho b).mem_iff.1 hv
  simp at h2
  omega

theorem perm_oracle_cover {o : Board → List Nat}
    (ho : ∀ b, (o b).Perm [1, 2, 3, 4]) :
    ∀ b v, 1 ≤ v → v ≤ 4 → v ∈ o b := by
  intro b v h1 h4
  exact (ho b).mem_iff.2 (mem_candidates h1 h4)

theorem solve_backtrack_sound {o : Board → List Nat}
    (ho : ∀ b v, v ∈ o b → v ≤ 4) (b : Board)
    (h : (solve_backtrack o b).1 = true) :
    SolvedFrom b (solve_backtrack o b).2 :=
  solveB_sound ho _ b h

theorem solve_backtrack_complete {o : Board → List Nat}
    (ho : ∀ b v, 1 ≤ v → v ≤ 4 → v ∈ o b) (b : Board)
    (hex : ∃ s, isCompletion b s) : (solve_backtrack o b).1 = true :=
  solveB_complete ho _ b (by omega) hex

theorem generate_full_solution_solved {o : Board → List Nat}
    (ho : ∀ b, (o b).Perm [1, 2, 3, 4]) :
    SolvedFrom zeroBoard (generate_full_solution o) := by
  have hsucc : (solve_backtrack o zeroBoard).1 = true :=
    solve_backtrack_complete (perm_oracle_cover ho) zeroBoard
      ⟨demoSolution, by decide⟩
  exact solve_backtrack_sound (perm_oracle_le ho) zeroBoard hsucc

theorem generate_full_solution_props {o : Board → List Nat}
    (ho : ∀ b, (o b).Perm [1, 2, 3, 4]) :
    boardComplete (generate_full_solution o) = true ∧
    boardValid (generate_full_solution o) = true ∧
    (∀ i < 4, ∀ j < 4, 1 ≤ generate_full_solution o i j ∧
      generate_full_solution o i j ≤ 4) := by
  obtain ⟨hcomp, _, _, hval, hrange⟩ := generate_full_solution_solved ho
  refine ⟨hcomp, hval (by decide), ?_⟩
  intro i hi j hj
  rcases hrange i hi j hj with h' | h'
  · exfalso
    have := (boardComplete_iff _).1 hcomp i hi j hj
    exact this (by rw [h']; rfl)
  · exact ⟨h'.2.1, h'.2.2⟩

/-- C1: for every removal target (and any solver shuffles and any candidate
removal order), the `startState` grid returned by `generate_puzzle` has
exactly one Sudoku completion, that completion agrees with the returned
`solution` on the whole 4x4 region, and `count_solutions` on a copy of
`startState` with `limit = 2` returns exactly 1. -/
theorem C1_generate_puzzle_unique (o : Board → List Nat)
    (ho : ∀ b, (o b).Perm [1, 2, 3, 4]) (cells : List (Nat × Nat))
    (removals : Nat) :
    isCompletion (generate_puzzle o cells removals).1
      (generate_puzzle o cells removals).2 ∧
    (∀ s, isCompletion (generate_puzzle o cells removals).1 s →
      ∀ i < 4, ∀ j < 4, s i j = (generate_puzzle o cells removals).2 i j) ∧
    (count_solutions (generate_puzzle o cells removals).1 2).1 = 1 := by
  obtain ⟨hcomp, hval, hrange⟩ := generate_full_solution_props ho
  simp only [generate_puzzle]
  have hagree : ∀ i j,
      removeLoop cells 0 removals (generate_full_solution o) i j ≠ 0 →
      removeLoop cells 0 removals (generate_full_solution o) i j =
        generate_full_solution o i j :=
    removeLoop_agree cells 0 removals _ _ (fun i j _ => rfl)
  have hC : isCompletion (removeLoop cells 0 removals
      (generate_full_solution o)) (generate_full_solution o) :=
    ⟨hrange, hval, fun i hi j hj hne => (hagree i j hne).symm⟩
  have hcount1 : (count_solutions (removeLoop cells 0 removals
      (generate_full_solution o)) 2).1 = 1 := by
    apply removeLoop_count
    have hE := findEmpty_of_complete hcomp
    rw [count_solutions, numZeros_of_complete hcomp]
    simp [countSol, hE]
  refine ⟨hC, ?_, hcount1⟩
  intro s hs i hi j hj
  by_contra hne
  have h2 := countSol_ge_two
    (numZeros (removeLoop cells 0 removals (generate_full_solution o)) + 1) 2
    (removeLoop cells 0 removals (generate_full_solution o)) s
    (generate_full_solution o) (by omega) (le_refl 2) hs hC
    ⟨i, hi, j, hj, hne⟩
  rw [count_solutions] at hcount1
  omega

/-- C1 witness: the theorem instantiated at the identity shuffle and the
row-major removal order with the default six removals. -/
theorem C1_witness :
    isCompletion (generate_puzzle oStd allCells 6).1
      (generate_puzzle oStd allCells 6).2 ∧
    (count_solutions (generate_puzzle oStd allCells 6).1 2).1 = 1 := by
  have h := C1_generate_puzzle_unique oStd (fun _ => List.Perm.refl _)
    allCells 6
  exact ⟨h.1, h.2.2⟩

/-- C2 counterexample: the claim says the target cell's own value is ignored,
so with a lone 1 at (0,0) it predicts `is_valid(grid,0,0,1) = true` (no cell
other than (0,0) holds 1 in its row, column or box); the code returns false
because its scans include the target cell itself. -/
theorem C2_counterexample :
    isValid pinBoard 0 0 1 = false ∧
    (∀ j < 4, j ≠ 0 → pinBoard 0 j ≠ 1) ∧
    (∀ i < 4, i ≠ 0 → pinBoard i 0 ≠ 1) ∧
    (∀ i < 2, ∀ j < 2, ¬(i = 0 ∧ j = 0) → pinBoard i j ≠ 1) := by
  decide

/-- C2 (amended): `is_valid(grid,r,c,v)` returns true iff no cell of row `r`,
no cell of column `c`, and no cell of the 2x2 box with origin
`(r - r%2, c - c%2)` holds `v` — where all three scans include the target
cell `(r,c)` itself, so the target cell's current value is not ignored. -/
theorem C2_isValid_characterization (b : Board) (r c v : Nat) :
    isValid b r c v = true ↔
      (∀ j < 4, b r j ≠ v) ∧ (∀ i < 4, b i c ≠ v) ∧
      (∀ i j, r - r % 2 ≤ i → i < r - r % 2 + 2 → c - c % 2 ≤ j →
        j < c - c % 2 + 2 → b i j ≠ v) := by
  rw [isValid_iff]
  refine and_congr_right fun _ => and_congr_right fun _ => ?_
  constructor
  · intro h i j h1 h2 h3 h4
    have hi : i - r / 2 * 2 < 2 := by omega
    have hj : j - c / 2 * 2 < 2 := by omega
    have h5 := h (i - r / 2 * 2) hi (j - c / 2 * 2) hj
    have ei : r / 2 * 2 + (i - r / 2 * 2) = i := by omega
    have ej : c / 2 * 2 + (j - c / 2 * 2) = j := by omega
    rw [ei, ej] at h5
    exact h5
  · intro h i hi j hj
    apply h <;> omega

/-- C3 counterexample: `overshootGrid` has (at least) two distinct Sudoku
completions, yet `count_solutions` with `limit = 2` returns 3 — more than
the limit and not exactly 2. -/
theorem C3_counterexample :
    (count_solutions overshootGrid 2).1 = 3 ∧
    isCompletion overshootGrid overshootSolA ∧
    isCompletion overshootGrid overshootSolB ∧
    overshootSolA 0 1 ≠ overshootSolB 0 1 := by
  decide

/-- C3 (amended): the returned value is not capped at `limit` (the final
accumulation step can overshoot, e.g. returning 3 with `limit = 2`); what
holds is the lower bound the early exit preserves: on any grid with two
completions that differ in the region, `count_solutions` with `limit ≥ 2`
returns at least 2. -/
theorem C3_count_at_least_two {g s1 s2 : Board} {limit : Nat}
    (hlim : 2 ≤ limit) (h1 : isCompletion g s1) (h2 : isCompletion g s2)
    (hdiff : ∃ i, i < 4 ∧ ∃ j, j < 4 ∧ s1 i j ≠ s2 i j) :
    2 ≤ (count_solutions g limit).1 :=
  countSol_ge_two (numZeros g + 1) limit g s1 s2 (by omega) hlim h1 h2 hdiff

/-- C3 witness: the amended bound at the concrete overshooting grid. -/
theorem C3_witness : 2 ≤ (count_solutions overshootGrid 2).1 :=
  @C3_count_at_least_two overshootGrid overshootSolA overshootSolB 2
    (le_refl 2) (by decide) (by decide)
    ⟨0, by decide, 1, by decide, by decide⟩

/-- C4 counterexample: on the invalid board `onesHole` (duplicate 1s in every
unit, one empty corner) the solver returns true although no constraint-
satisfying completion exists, refuting the claimed equivalence for arbitrary
grids. -/
theorem C4_counterexample :
    (solve_backtrack oStd onesHole).1 = true ∧
    ¬∃ s, isCompletion onesHole s := by
  constructor
  · decide
  · rintro ⟨s, hs⟩
    have h1 : s 0 1 = onesHole 0 1 := hs.2.2 0 (by omega) 1 (by omega) (by decide)
    have h2 : s 0 2 = onesHole 0 2 := hs.2.2 0 (by omega) 2 (by omega) (by decide)
    have hdup : s 0 1 ≠ s 0 2 :=
      boardValid_row hs.2.1 (by omega) (by omega) (by omega) (by omega)
        (by rw [h1]; decide)
    exact hdup (by rw [h1, h2]; decide)

/-- C4 (amended): for every grid whose region holds only values 0-4 and whose
filled cells violate no constraint, and for every shuffle oracle,
`solve_backtrack` returns true iff the grid admits a Sudoku completion; on
success the final board is complete, satisfies all constraints, and agrees
with the input on every originally non-empty cell. -/
theorem C4_solve_iff (o : Board → List Nat)
    (ho : ∀ b, (o b).Perm [1, 2, 3, 4]) (g : Board)
    (hval : boardValid g = true) (hle : ∀ i < 4, ∀ j < 4, g i j ≤ 4) :
    ((solve_backtrack o g).1 = true ↔ ∃ s, isCompletion g s) ∧
    ((solve_backtrack o g).1 = true →
      boardComplete (solve_backtrack o g).2 = true ∧
      boardValid (solve_backtrack o g).2 = true ∧
      ∀ i j, g i j ≠ 0 → (solve_backtrack o g).2 i j = g i j) := by
  constructor
  · constructor
    · intro h
      obtain ⟨hcomp, hext, hout, hvalres, hrange⟩ :=
        solve_backtrack_sound (perm_oracle_le ho) g h
      refine ⟨(solve_backtrack o g).2, ?_, hvalres hval, ?_⟩
      · intro i hi j hj
        rcases hrange i hi j hj with h' | h'
        · have hnz := (boardComplete_iff _).1 hcomp i hi j hj
          have hgle := hle i hi j hj
          omega
        · exact ⟨h'.2.1, h'.2.2⟩
      · intro i hi j hj hgz
        exact hext i j hgz
    · intro hex
      exact solve_backtrack_complete (perm_oracle_cover ho) g hex
  · intro h
    obtain ⟨hcomp, hext, _, hvalres, _⟩ :=
      solve_backtrack_sound (perm_oracle_le ho) g h
    exact ⟨hcomp, hvalres hval, fun i j hij => hext i j hij⟩

/-- C4 witness: the amended equivalence at the empty grid with the identity
shuffle. -/
theorem C4_witness :
    ((solve_backtrack oStd zeroBoard).1 = true ↔
      ∃ s, isCompletion zeroBoard s) ∧
    ((solve_backtrack oStd zeroBoard).1 = true →
      boardComplete (solve_backtrack oStd zeroBoard).2 = true ∧
      boardValid (solve_backtrack oStd zeroBoard).2 = true ∧
      ∀ i j, zeroBoard i j ≠ 0 →
        (solve_backtrack oStd zeroBoard).2 i j = zeroBoard i j) :=
  C4_solve_iff oStd (fun _ => List.Perm.refl _) zeroBoard (by decide)
    (by decide)

/-- C5: after `solve_backtrack` returns false the board equals its pre-call
state, and after `count_solutions` returns (whatever the limit) the board
equals its pre-call state. -/
theorem C5_restoration (o : Board → List Nat) (b : Board) (limit : Nat) :
    ((solve_backtrack o b).1 = false → (solve_backtrack o b).2 = b) ∧
    (count_solutions b limit).2 = b :=
  ⟨fun h => solveB_restore o _ b h, countSol_restore _ limit b⟩

/-- C5 witness: restoration observed on a concrete unsolvable grid. -/
theorem C5_witness :
    (solve_backtrack oStd stuckBoard).1 = false ∧
    (solve_backtrack oStd stuckBoard).2 = stuckBoard ∧
    (count_solutions stuckBoard 2).2 = stuckBoard := by
  have h := C5_restoration oStd stuckBoard 2
  have hf : (solve_backtrack oStd stuckBoard).1 = false := by decide
  exact ⟨hf, h.1 hf, h.2⟩

/-- C6: every grid returned by `generate_full_solution` (for any shuffle
oracle) is valid and complete. -/
theorem C6_generate_full_solution_valid (o : Board → List Nat)
    (ho : ∀ b, (o b).Perm [1, 2, 3, 4]) :
    boardValid (generate_full_solution o) = true ∧
    boardComplete (generate_full_solution o) = true :=
  ⟨(generate_full_solution_props ho).2.1, (generate_full_solution_props ho).1⟩

/-- C6 witness: the theorem at the identity shuffle. -/
theorem C6_witness :
    boardValid (generate_full_solution oStd) = true ∧
    boardComplete (generate_full_solution oStd) = true :=
  C6_generate_full_solution_valid oStd (fun _ => List.Perm.refl _)

/-- C7: for every pair returned by `generate_puzzle`, the solution is valid
and complete, and it agrees with `startState` on every non-empty cell of
`startState`. -/
theorem C7_solution_props (o : Board → List Nat)
    (ho : ∀ b, (o b).Perm [1, 2, 3, 4]) (cells : List (Nat × Nat))
    (removals : Nat) :
    boardValid (generate_puzzle o cells removals).2 = true ∧
    boardComplete (generate_puzzle o cells removals).2 = true ∧
    (∀ i j, (generate_puzzle o cells removals).1 i j ≠ 0 →
      (generate_puzzle o cells removals).2 i j =
        (generate_puzzle o cells removals).1 i j) := by
  obtain ⟨hcomp, hval, _⟩ := generate_full_solution_props ho
  simp only [generate_puzzle]
  refine ⟨hval, hcomp, ?_⟩
  intro i j hij
  exact (removeLoop_agree cells 0 removals _ _ (fun _ _ _ => rfl) i j hij).symm

/-- C7 witness: the theorem at the identity shuffle and row-major removal
order. -/
theorem C7_witness :
    boardValid (generate_puzzle oStd allCells 6).2 = true ∧
    boardComplete (generate_puzzle oStd allCells 6).2 = true ∧
    (∀ i j, (generate_puzzle oStd allCells 6).1 i j ≠ 0 →
      (generate_puzzle oStd allCells 6).2 i j =
        (generate_puzzle oStd allCells 6).1 i j) :=
  C7_solution_props oStd (fun _ => List.Perm.refl _) allCells 6

/-- C8: `count_solutions` on the all-empty 4x4 grid with `limit = 2` returns
exactly 2, not the true total of 288 completions. -/
theorem C8_empty_grid_count : (count_solutions zeroBoard 2).1 = 2 := by
  decide

/-- C9: the `startState` returned by `generate_puzzle` has at most
`removals` empty cells; when fewer cells can be removed the result simply
has fewer empties, and no error is possible (the function is total). -/
theorem C9_at_most_removals (o : Board → List Nat)
    (ho : ∀ b, (o b).Perm [1, 2, 3, 4]) (cells : List (Nat × Nat))
    (removals : Nat) :
    numZeros (generate_puzzle o cells removals).1 ≤ removals := by
  simp only [generate_puzzle]
  apply removeLoop_zeros
  · exact le_of_eq (numZeros_of_complete (generate_full_solution_props ho).1)
  · exact Nat.zero_le removals

/-- C9 witness: the bound at the identity shuffle, row-major order and the
default six removals. -/
theorem C9_witness : numZeros (generate_puzzle oStd allCells 6).1 ≤ 6 :=
  C9_at_most_removals oStd (fun _ => List.Perm.refl _) allCells 6

/-- C10: on any grid with no empty cell — even one violating the
constraints — `solve_backtrack` returns true and `count_solutions` returns 1
for every limit, because neither base case re-validates the board. -/
theorem C10_complete_base_cases (o : Board → List Nat) (b : Board)
    (h : boardComplete b = true) :
    solve_backtrack o b = (true, b) ∧
    ∀ limit, count_solutions b limit = (1, b) := by
  have hE := findEmpty_of_complete h
  have hz := numZeros_of_complete h
  constructor
  · simp only [solve_backtrack, hz]
    simp [solveB, hE]
  · intro limit
    simp only [count_solutions, hz]
    simp [countSol, hE]

/-- C10 witness: the complete but invalid all-ones board is reported solved
and as having exactly one solution. -/
theorem C10_witness :
    boardComplete onesBoard = true ∧ boardValid onesBoard = false ∧
    solve_backtrack oStd onesBoard = (true, onesBoard) ∧
    count_solutions onesBoard 2 = (1, onesBoard) := by
  have h := C10_complete_base_cases oStd onesBoard (by decide)
  exact ⟨by decide, by decide, h.1, h.2 2⟩
